import Mathlib

/-!
Verification development for the `simplegrad` scalar reverse-mode
automatic-differentiation engine (`src/simplegrad/tensor.py` and
`src/simplegrad/nn.py`).

Python `Tensor` objects are mutable heap objects with identity; we embed
them as an arena: a `Graph` is the list of all `Tensor` records ever
allocated, a node is identified by its allocation index (`NodeId`), and
mutation is explicit state passing on the `Graph`.  The `_backward`
closures of the source belong to a closed set (one shape per operation,
capturing the operand/output object references and, for `exp`/`tanh`, the
locally computed `value` float), so they are embedded as the first-order
datatype `BRule` dispatched by `runRule`.  Numeric values are `ℚ`
(the concrete programs of interest stay within exact arithmetic); the
transcendental `math.exp` is passed in as an explicit parameter `fexp`
where needed.
-/

namespace SimpleGrad

abbrev NodeId := Nat

/-- The closed set of `_backward` closures installed by the operations in
`tensor.py`.  Each constructor records the object references (`self`,
`operand`, `out`) the Python closure captures; `expR`/`tanhR` also record
the captured local `value`, and `powR` the captured `power`. -/
inductive BRule where
  | noop
  | addR (self opd out : NodeId)
  | mulR (self opd out : NodeId)
  | powR (self : NodeId) (power : Int) (out : NodeId)
  | expR (self : NodeId) (value : ℚ) (out : NodeId)
  | tanhR (self : NodeId) (value : ℚ) (out : NodeId)
  deriving DecidableEq

/-- One `Tensor` object: `value`, `_children` (a set of object references,
kept as a duplicate-free list of arena ids in insertion order), `grad`,
and `_backward`. -/
structure Tensor where
  value : ℚ
  children : List NodeId
  grad : ℚ
  bwd : BRule
  deriving DecidableEq

/-- The arena of all allocated `Tensor` objects; a `NodeId` indexes it. -/
abbrev Graph := List Tensor

/-- `node.value` (0 for a dangling id; all uses are in range). -/
def valueOf (g : Graph) (i : NodeId) : ℚ := (g[i]?.map Tensor.value).getD 0

/-- `node.grad`. -/
def gradOf (g : Graph) (i : NodeId) : ℚ := (g[i]?.map Tensor.grad).getD 0

/-- `node._backward`. -/
def bwdOf (g : Graph) (i : NodeId) : BRule := (g[i]?.map Tensor.bwd).getD .noop

/-- `node._children`. -/
def childIds (g : Graph) (i : NodeId) : List NodeId :=
  (g[i]?.map Tensor.children).getD []

/-- In-place update of one node (Python attribute assignment). -/
def modifyNode : Graph → NodeId → (Tensor → Tensor) → Graph
  | [], _, _ => []
  | nd :: g, 0, f => f nd :: g
  | nd :: g, i + 1, f => nd :: modifyNode g i f

/-- `node.grad = v`. -/
def setGrad (g : Graph) (i : NodeId) (v : ℚ) : Graph :=
  modifyNode g i (fun nd => { nd with grad := v })

/-- `node.grad += v`. -/
def addGrad (g : Graph) (i : NodeId) (v : ℚ) : Graph :=
  modifyNode g i (fun nd => { nd with grad := nd.grad + v })

/-- `node._backward = rule`. -/
def setBwd (g : Graph) (i : NodeId) (r : BRule) : Graph :=
  modifyNode g i (fun nd => { nd with bwd := r })

/-- `Tensor.__init__`: a fresh leaf node with `grad = 0.0`, empty
`_children` and the no-op `_backward`; returns the new arena and id. -/
def mkTensor (g : Graph) (v : ℚ) : Graph × NodeId :=
  (g ++ [⟨v, [], 0, .noop⟩], g.length)

/-- `out._children.update({self, operand})` starting from an empty set:
object-identity set semantics, deduplicating the `x + x` case. -/
def pairChildren (a b : NodeId) : List NodeId :=
  if a = b then [a] else [a, b]

/-- `Tensor.__add__` on a `Tensor` operand: allocates `out`, wires
`out._children`, and then executes `self._backward = _backward` exactly as
the source does (the closure is assigned to `self`, not to `out`). -/
def addT (g : Graph) (s opd : NodeId) : Graph × NodeId :=
  let o := g.length
  let g1 := g ++ [⟨valueOf g s + valueOf g opd, pairChildren s opd, 0, .noop⟩]
  (setBwd g1 s (.addR s opd o), o)

/-- `Tensor.__mul__` on a `Tensor` operand. -/
def mulT (g : Graph) (s opd : NodeId) : Graph × NodeId :=
  let o := g.length
  let g1 := g ++ [⟨valueOf g s * valueOf g opd, pairChildren s opd, 0, .noop⟩]
  (setBwd g1 s (.mulR s opd o), o)

/-- `Tensor.__pow__` with a plain numeric exponent (modelled as an
integer; the claims only exercise integral exponents, e.g. `-1` in
`__truediv__`). -/
def powT (g : Graph) (s : NodeId) (p : Int) : Graph × NodeId :=
  let o := g.length
  let g1 := g ++ [⟨valueOf g s ^ p, [s], 0, .noop⟩]
  (setBwd g1 s (.powR s p o), o)

/-- `Tensor.exp`; `fexp` stands for `math.exp`. -/
def expT (fexp : ℚ → ℚ) (g : Graph) (s : NodeId) : Graph × NodeId :=
  let v := fexp (valueOf g s)
  let o := g.length
  let g1 := g ++ [⟨v, [s], 0, .noop⟩]
  (setBwd g1 s (.expR s v o), o)

/-- `Tensor.tanh`: `value = exp(2x); value = (value-1)/(value+1)`. -/
def tanhT (fexp : ℚ → ℚ) (g : Graph) (s : NodeId) : Graph × NodeId :=
  let e := fexp (2 * valueOf g s)
  let v := (e - 1) / (e + 1)
  let o := g.length
  let g1 := g ++ [⟨v, [s], 0, .noop⟩]
  (setBwd g1 s (.tanhR s v o), o)

/-- `Tensor.__add__` with a plain-number operand: the number is lifted by
`Tensor(value=operand)` and then the `Tensor`-operand path runs. -/
def addTC (g : Graph) (s : NodeId) (c : ℚ) : Graph × NodeId :=
  let p := mkTensor g c
  addT p.1 s p.2

/-- `Tensor.__radd__`: `return self + operand` (so `c + a` for a plain
number `c` dispatches to exactly the same computation as `a + c`). -/
def raddTC (g : Graph) (s : NodeId) (c : ℚ) : Graph × NodeId :=
  addTC g s c

/-- `Tensor.__mul__` with a plain-number operand. -/
def mulTC (g : Graph) (s : NodeId) (c : ℚ) : Graph × NodeId :=
  let p := mkTensor g c
  mulT p.1 s p.2

/-- `Tensor.__neg__`: `-1 * self`, which dispatches through
`Tensor.__rmul__(-1)` to `self * (-1)`, lifting `-1` to a leaf. -/
def negT (g : Graph) (s : NodeId) : Graph × NodeId :=
  mulTC g s (-1)

/-- `Tensor.__sub__` on a `Tensor` operand: `self + (-operand)`. -/
def subT (g : Graph) (s opd : NodeId) : Graph × NodeId :=
  let p := negT g opd
  addT p.1 s p.2

/-- `Tensor.__truediv__` on a `Tensor` operand: `self * operand ** -1`. -/
def divT (g : Graph) (s opd : NodeId) : Graph × NodeId :=
  let p := powT g opd (-1)
  mulT p.1 s p.2

/-- A Python value appearing as the operand of `__add__`/`__mul__`:
a `Tensor`, a plain number, or anything else (recorded by its type name). -/
inductive PyVal where
  | tensor (id : NodeId)
  | num (c : ℚ)
  | other (typeName : String)

/-- The host errors relevant here: the `AttributeError` actually raised
when a non-`Tensor`, non-number operand reaches `operand.value`, and the
`TypeError` Python conventionally raises for unsupported operand types. -/
inductive PyError where
  | attributeError (typeName attrName : String)
  | typeErrorUnsupportedOperand (op lhsType rhsType : String)
  deriving DecidableEq

/-- `Tensor.__add__` over an arbitrary Python operand.  A non-number,
non-`Tensor` operand survives the `isinstance` check unchanged and then
`operand.value` raises `AttributeError` (host attribute-access
semantics). -/
def addOp (g : Graph) (s : NodeId) (opd : PyVal) : Except PyError (Graph × NodeId) :=
  match opd with
  | .tensor b => .ok (addT g s b)
  | .num c => .ok (addTC g s c)
  | .other ty => .error (.attributeError ty ("value"))

/-- `Tensor.__mul__` over an arbitrary Python operand. -/
def mulOp (g : Graph) (s : NodeId) (opd : PyVal) : Except PyError (Graph × NodeId) :=
  match opd with
  | .tensor b => .ok (mulT g s b)
  | .num c => .ok (mulTC g s c)
  | .other ty => .error (.attributeError ty ("value"))

/-- Does an operation result carry Python's conventional
`unsupported operand type` `TypeError`? -/
def errorIsUnsupportedOperandType : Except PyError (Graph × NodeId) → Bool
  | .error (.typeErrorUnsupportedOperand _ _ _) => true
  | _ => false

mutual

/-- The recursive `_sort(node)` of `Tensor._topological_sort`: mark the
node visited on first encounter, recurse into `node._children`, then
append the node (post-order).  State is `(visited, topological_order)`.
`fuel` only forces termination; for graphs satisfying the source's
append-only invariant (children have smaller ids) any `fuel > node` is
enough, and `topologicalSort` supplies it. -/
def sortAux (g : Graph) (fuel : Nat) (n : NodeId)
    (st : List NodeId × List NodeId) : List NodeId × List NodeId :=
  match fuel with
  | 0 => st
  | f + 1 =>
    if n ∈ st.1 then st
    else
      let st2 := sortChildren g f (childIds g n) (n :: st.1, st.2)
      (st2.1, st2.2 ++ [n])
termination_by (fuel, 0)

/-- The `for child in node._children: _sort(child)` loop. -/
def sortChildren (g : Graph) (fuel : Nat) (cs : List NodeId)
    (st : List NodeId × List NodeId) : List NodeId × List NodeId :=
  match cs with
  | [] => st
  | c :: rest => sortChildren g fuel rest (sortAux g fuel c st)
termination_by (fuel, cs.length + 1)

end

/-- `Tensor._topological_sort`: run `_sort` from the terminal node with
empty `visited`/`topological_order` and return the order. -/
def topologicalSort (g : Graph) (root : NodeId) : List NodeId :=
  (sortAux g (root + 1) root ([], [])).2

/-- Invoke one `_backward` closure on the current state.  Each `+=` reads
the arena at invocation time, exactly like the Python closure's attribute
accesses. -/
def runRule (g : Graph) (r : BRule) : Graph :=
  match r with
  | .noop => g
  | .addR s opd o =>
    let g1 := addGrad g s (gradOf g o)
    addGrad g1 opd (gradOf g1 o)
  | .mulR s opd o =>
    let g1 := addGrad g s (valueOf g opd * gradOf g o)
    addGrad g1 opd (valueOf g1 s * gradOf g1 o)
  | .powR s p o =>
    addGrad g s (((p : ℚ) * valueOf g s ^ (p - 1)) * gradOf g o)
  | .expR s v o => addGrad g s (v * gradOf g o)
  | .tanhR s v o => addGrad g s ((1 - v ^ 2) * gradOf g o)

/-- `Tensor.backward`: `self.grad = 1.0`, then invoke `node._backward()`
for each node of the topological order in reverse. -/
def backward (g : Graph) (t : NodeId) : Graph :=
  let g1 := setGrad g t 1
  (topologicalSort g1 t).reverse.foldl (fun h n => runRule h (bwdOf h n)) g1

/-- Setting `grad = 0.0` on every node of the graph (the externally
exposed reset used between training steps, cf. `reset_gradients`). -/
def resetAllGrads (g : Graph) : Graph :=
  g.map (fun nd => { nd with grad := 0 })

/-- The source's implicit acyclicity invariant: operations only produce a
*new* node, so every node's `_children` were allocated strictly earlier. -/
def WellFormed (g : Graph) : Prop :=
  ∀ i < g.length, ∀ c ∈ childIds g i, c < i

instance (g : Graph) : Decidable (WellFormed g) := by
  unfold WellFormed; infer_instance

/-- Reachability from `root` along `_children` edges (the sub-graph
`backward` must traverse). -/
inductive Reachable (g : Graph) (root : NodeId) : NodeId → Prop where
  | refl : Reachable g root root
  | step {n c : NodeId} : Reachable g root n → c ∈ childIds g n → Reachable g root c

/-! ### The neural-network module (`nn.py`)

`Neuron.__init__` draws its weight values from `random.uniform`; the
drawn values are passed in explicitly here (`ws`), the rest is as in the
source.  A `Neuron` holds arena ids of its weight and bias tensors. -/

structure Neuron where
  weights : List NodeId
  bias : NodeId
  deriving DecidableEq

structure Layer where
  neurons : List Neuron
  deriving DecidableEq

structure MLP where
  layers : List Layer
  deriving DecidableEq

/-- `Neuron.__init__`: allocate one leaf tensor per drawn weight value
and a bias tensor with value `0.0`. -/
def mkNeuron (g : Graph) (ws : List ℚ) : Graph × Neuron :=
  let p := ws.foldl
    (fun (st : Graph × List NodeId) w =>
      let q := mkTensor st.1 w
      (q.1, st.2 ++ [q.2]))
    (g, [])
  let b := mkTensor p.1 0
  (b.1, ⟨p.2, b.2⟩)

/-- `sum([w * x for w, x in zip(...)])`: Python's `sum` starts from the
plain int `0`, so the first addition is `0 + p₀`, which dispatches
through `Tensor.__radd__` to `p₀ + 0`; later additions are
`Tensor + Tensor`.  `sum([])` is the plain number `0` (`none` here). -/
def sumTensors (g : Graph) : List NodeId → Graph × Option NodeId
  | [] => (g, none)
  | p :: ps =>
    let a0 := addTC g p 0
    let r := ps.foldl (fun (st : Graph × NodeId) q => addT st.1 st.2 q) a0
    (r.1, some r.2)

/-- `Neuron.__call__`: weighted sum (each `w * x` multiplies a weight
tensor by a plain input number), plus bias, then `tanh`. -/
def neuronCall (fexp : ℚ → ℚ) (g : Graph) (nr : Neuron) (inputs : List ℚ) :
    Graph × NodeId :=
  let prods := (nr.weights.zip inputs).foldl
    (fun (st : Graph × List NodeId) wx =>
      let q := mulTC st.1 wx.1 wx.2
      (q.1, st.2 ++ [q.2]))
    (g, [])
  let s := sumTensors prods.1 prods.2
  let pre :=
    match s.2 with
    | some i => addT s.1 i nr.bias
    | none => addTC s.1 nr.bias 0
  tanhT fexp pre.1 pre.2

/-- What `Layer.__call__` returns: the bare output for a single neuron,
the list otherwise. -/
inductive LayerOut where
  | single (o : NodeId)
  | many (os : List NodeId)
  deriving DecidableEq

/-- The `[n(inputs) for n in self.neurons]` comprehension. -/
def layerOutputs (fexp : ℚ → ℚ) (g : Graph) (L : Layer) (inputs : List ℚ) :
    Graph × List NodeId :=
  L.neurons.foldl
    (fun (st : Graph × List NodeId) nr =>
      let q := neuronCall fexp st.1 nr inputs
      (q.1, st.2 ++ [q.2]))
    (g, [])

/-- `Layer.__call__`: `out if len(out) > 1 else out[0]` (`none` models the
`IndexError` of `out[0]` on a layer with no neurons). -/
def layerCall (fexp : ℚ → ℚ) (g : Graph) (L : Layer) (inputs : List ℚ) :
    Graph × Option LayerOut :=
  let p := layerOutputs fexp g L inputs
  match p.2 with
  | [] => (p.1, none)
  | [o] => (p.1, some (.single o))
  | os => (p.1, some (.many os))

/-- One iteration of the loop in `MLP.__call__`:
`out = layer(inputs)` — note the layer is applied to the method's
`inputs` argument, and the previous `out` is discarded. -/
def mlpStep (fexp : ℚ → ℚ) (inputs : List ℚ)
    (st : Graph × Option (Option LayerOut)) (L : Layer) :
    Graph × Option (Option LayerOut) :=
  let r := layerCall fexp st.1 L inputs
  (r.1, some r.2)

/-- `MLP.__call__`: `for layer in self.layers: out = layer(inputs)` then
`return out`; the outer `none` models the `NameError` when `self.layers`
is empty and `out` was never bound. -/
def mlpCall (fexp : ℚ → ℚ) (g : Graph) (m : MLP) (inputs : List ℚ) :
    Graph × Option (Option LayerOut) :=
  m.layers.foldl (mlpStep fexp inputs) (g, none)

/-- Threading only the arena through a list of layer applications, each
on the same raw `inputs` (used to phrase what `MLP.__call__` does). -/
def runLayers (fexp : ℚ → ℚ) (g : Graph) (ls : List Layer) (inputs : List ℚ) :
    Graph :=
  ls.foldl (fun h L => (layerCall fexp h L inputs).1) g

/-! ### Concrete example graphs used by the claim theorems -/

/-- `a = Tensor(2.0); b = Tensor(3.0)` (ids 0 and 1). -/
def gAB : Graph := (mkTensor (mkTensor ([] : Graph) 2).1 3).1

/-- `z = a * b` on `gAB` (`z` has id 2). -/
def gABmul : Graph := (mulT gAB 0 1).1

/-- `x = Tensor(2.0); y = x*x; z = x*x*x; w = y + z`
(ids: `x = 0`, `y = 1`, `x*x = 2`, `z = 3`, `w = 4`). -/
def gDiamond : Graph :=
  (addT (mulT (mulT (mulT (mkTensor ([] : Graph) 2).1 0 0).1 0 0).1 2 0).1 1 3).1

/-- A one-weight neuron over arena ids 0 (weight, value 1) and 1 (bias). -/
def nrEx : Neuron := ⟨[0], 1⟩

/-- A single-neuron layer reused for the MLP example. -/
def lEx : Layer := ⟨[nrEx]⟩

/-- Arena holding the example neuron's weight and bias tensors. -/
def gNN : Graph := (mkTensor (mkTensor ([] : Graph) 1).1 0).1

/-! ### Proof infrastructure for the topological-sort correctness claim -/

/-- Every node of `l` has all of its `_children` at strictly smaller
positions of `l`. -/
def OrderedList (g : Graph) (l : List NodeId) : Prop :=
  ∀ (i : Nat) (n : NodeId), l[i]? = some n →
    ∀ c ∈ childIds g n, ∃ j : Nat, j < i ∧ l[j]? = some c

/-- Invariant of the `(visited, topological_order)` state. -/
def GoodSt (g : Graph) (st : List NodeId × List NodeId) : Prop :=
  st.2.Nodup ∧ (∀ x ∈ st.2, x ∈ st.1) ∧ OrderedList g st.2

/-- Postcondition of `sortAux g fuel n st` (with enough fuel). -/
def SAPost (g : Graph) (n : NodeId) (st st' : List NodeId × List NodeId) : Prop :=
  GoodSt g st' ∧
  (∃ pre, st'.2 = st.2 ++ pre) ∧
  (∀ x ∈ st.1, x ∈ st'.1) ∧
  (∀ x ∈ st'.1, x ∈ st.1 ∨ (x ∈ st'.2 ∧ Reachable g n x)) ∧
  (∀ x ∈ st'.2, x ∈ st.2 ∨ x ∉ st.1) ∧
  n ∈ st'.1

/-- Postcondition of `sortChildren g fuel cs st` (with enough fuel). -/
def SCPost (g : Graph) (cs : List NodeId) (st st' : List NodeId × List NodeId) : Prop :=
  GoodSt g st' ∧
  (∃ pre, st'.2 = st.2 ++ pre) ∧
  (∀ x ∈ st.1, x ∈ st'.1) ∧
  (∀ x ∈ st'.1, x ∈ st.1 ∨ (x ∈ st'.2 ∧ ∃ c ∈ cs, Reachable g c x)) ∧
  (∀ x ∈ st'.2, x ∈ st.2 ∨ x ∉ st.1) ∧
  (∀ c ∈ cs, c ∈ st'.1)

lemma sortAux_zero (g : Graph) (n : NodeId) (st : List NodeId × List NodeId) :
    sortAux g 0 n st = st := by
  simp [sortAux]

lemma sortAux_succ (g : Graph) (f : Nat) (n : NodeId) (st : List NodeId × List NodeId) :
    sortAux g (f + 1) n st =
      if n ∈ st.1 then st
      else
        let st2 := sortChildren g f (childIds g n) (n :: st.1, st.2)
        (st2.1, st2.2 ++ [n]) := by
  simp [sortAux]

lemma sortChildren_nil (g : Graph) (fuel : Nat) (st : List NodeId × List NodeId) :
    sortChildren g fuel [] st = st := by
  simp [sortChildren]

lemma sortChildren_cons (g : Graph) (fuel : Nat) (c : NodeId) (cs : List NodeId)
    (st : List NodeId × List NodeId) :
    sortChildren g fuel (c :: cs) st = sortChildren g fuel cs (sortAux g fuel c st) := by
  simp [sortChildren]

lemma reachable_trans {g : Graph} {a b c : NodeId}
    (h1 : Reachable g a b) (h2 : Reachable g b c) : Reachable g a c := by
  induction h2 with
  | refl => exact h1
  | step _ hc ih => exact .step ih hc

lemma childIds_lt {g : Graph} (hWF : WellFormed g) {n c : NodeId}
    (hc : c ∈ childIds g n) : c < n := by
  by_cases h : n < g.length
  · exact hWF n h c hc
  · have hnone : g[n]? = none := List.getElem?_eq_none (Nat.le_of_not_lt h)
    simp [childIds, hnone] at hc

lemma gray_preserved {st st' : List NodeId × List NodeId}
    (hpre : ∃ pre, st'.2 = st.2 ++ pre)
    (hmono : ∀ x ∈ st.1, x ∈ st'.1)
    (hnew : ∀ x ∈ st'.1, x ∈ st.1 ∨ x ∈ st'.2)
    (hord : ∀ x ∈ st'.2, x ∈ st.2 ∨ x ∉ st.1) :
    ∀ x, (x ∈ st'.1 ∧ x ∉ st'.2) ↔ (x ∈ st.1 ∧ x ∉ st.2) := by
  obtain ⟨pre, hp⟩ := hpre
  intro x
  constructor
  · rintro ⟨hx1, hx2⟩
    rcases hnew x hx1 with h | h
    · exact ⟨h, fun hmem => hx2 (by rw [hp]; exact List.mem_append_left _ hmem)⟩
    · exact absurd h hx2
  · rintro ⟨hx1, hx2⟩
    refine ⟨hmono x hx1, fun hmem => ?_⟩
    rcases hord x hmem with h | h
    · exact hx2 h
    · exact h hx1

/-- The central invariant of the depth-first traversal: with enough fuel
(`fuel > node id` suffices on graphs satisfying the append-only
invariant), `_sort` and its child loop establish `SAPost`/`SCPost`. -/
lemma sort_spec (g : Graph) (hWF : WellFormed g) :
    ∀ fuel : Nat,
      (∀ n st, n < fuel → GoodSt g st → (∀ x ∈ st.1, x ∉ st.2 → n < x) →
        SAPost g n st (sortAux g fuel n st)) ∧
      (∀ cs st, (∀ c ∈ cs, c < fuel) → GoodSt g st →
        (∀ c ∈ cs, ∀ x ∈ st.1, x ∉ st.2 → c < x) →
        SCPost g cs st (sortChildren g fuel cs st)) := by
  intro fuel
  induction fuel with
  | zero =>
    constructor
    · intro n st hn
      exact absurd hn (Nat.not_lt_zero n)
    · intro cs st hcs hst _
      cases cs with
      | nil =>
        rw [sortChildren_nil]
        exact ⟨hst, ⟨[], (List.append_nil _).symm⟩, fun x hx => hx,
          fun x hx => Or.inl hx, fun x hx => Or.inl hx,
          fun c hc => absurd hc (List.not_mem_nil c)⟩
      | cons c cs' =>
        exact absurd (hcs c (List.mem_cons_self c cs')) (Nat.not_lt_zero c)
  | succ f ih =>
    have hSA : ∀ n st, n < f + 1 → GoodSt g st → (∀ x ∈ st.1, x ∉ st.2 → n < x) →
        SAPost g n st (sortAux g (f + 1) n st) := by
      intro n st hn hst hgray
      rw [sortAux_succ]
      by_cases hvis : n ∈ st.1
      · rw [if_pos hvis]
        exact ⟨hst, ⟨[], (List.append_nil _).symm⟩, fun x hx => hx,
          fun x hx => Or.inl hx, fun x hx => Or.inl hx, hvis⟩
      · rw [if_neg hvis]
        have hchild_lt : ∀ c ∈ childIds g n, c < n := fun c hc => childIds_lt hWF hc
        have hSC := ih.2 (childIds g n) (n :: st.1, st.2)
          (fun c hc => lt_of_lt_of_le (hchild_lt c hc) (Nat.lt_succ_iff.mp hn))
          ⟨hst.1, fun x hx => List.mem_cons_of_mem n (hst.2.1 x hx), hst.2.2⟩
          (by
            intro c hc x hx hx2
            rcases List.mem_cons.mp hx with rfl | hx'
            · exact hchild_lt c hc
            · exact lt_trans (hchild_lt c hc) (hgray x hx' hx2))
        obtain ⟨hG2, ⟨pre, hpre⟩, hmono2, hnew2, hord2, hallc⟩ := hSC
        have hgray2 := gray_preserved ⟨pre, hpre⟩ hmono2
          (fun x hx => (hnew2 x hx).imp id And.left) hord2
        have hn_not_ord : n ∉ st.2 := fun h => hvis (hst.2.1 n h)
        have hn2 := (hgray2 n).mpr ⟨List.mem_cons_self n st.1, hn_not_ord⟩
        have hchild_ord :
            ∀ c ∈ childIds g n, c ∈ (sortChildren g f (childIds g n) (n :: st.1, st.2)).2 := by
          intro c hc
          by_contra hnot
          have hgr := (hgray2 c).mp ⟨hallc c hc, hnot⟩
          rcases List.mem_cons.mp hgr.1 with hceq | hcin'
          · exact absurd hceq (Nat.ne_of_lt (hchild_lt c hc))
          · exact Nat.lt_asymm (hchild_lt c hc) (hgray c hcin' hgr.2)
        refine ⟨⟨?_, ?_, ?_⟩, ?_, ?_, ?_, ?_, ?_⟩
        · exact List.nodup_append.mpr ⟨hG2.1, List.nodup_singleton n,
            fun a ha hmem => by
              rw [List.mem_singleton] at hmem
              exact hn2.2 (hmem ▸ ha)⟩
        · intro x hx
          rcases List.mem_append.mp hx with h | h
          · exact hG2.2.1 x h
          · rw [List.mem_singleton] at h
            exact h ▸ hn2.1
        · intro i m hm c hc
          set l := (sortChildren g f (childIds g n) (n :: st.1, st.2)).2 with hl
          rcases Nat.lt_trichotomy i l.length with hi | hi | hi
          · rw [List.getElem?_append_left hi] at hm
            obtain ⟨j, hj, hjget⟩ := hG2.2.2 i m hm c hc
            have hjlt : j < l.length := lt_trans hj hi
            exact ⟨j, hj, by rw [List.getElem?_append_left hjlt]; exact hjget⟩
          · subst hi
            rw [List.getElem?_concat_length] at hm
            have hmn : m = n := by injection hm with h; exact h.symm
            subst hmn
            have hcord := hchild_ord c hc
            obtain ⟨j, hjget⟩ := List.getElem?_of_mem hcord
            have hjlt : j < l.length := (List.getElem?_eq_some_iff.mp hjget).1
            exact ⟨j, hjlt, by rw [List.getElem?_append_left hjlt]; exact hjget⟩
          · exfalso
            have : (l ++ [n])[i]? = none := List.getElem?_eq_none (by simp; omega)
            rw [this] at hm
            exact Option.noConfusion hm
        · exact ⟨pre ++ [n], by
            show (sortChildren g f (childIds g n) (n :: st.1, st.2)).2 ++ [n] = st.2 ++ (pre ++ [n])
            rw [hpre]
            simp⟩
        · exact fun x hx => hmono2 x (List.mem_cons_of_mem n hx)
        · intro x hx
          rcases hnew2 x hx with hx1 | ⟨hx2, c, hc, hre⟩
          · rcases List.mem_cons.mp hx1 with rfl | hx'
            · exact Or.inr ⟨List.mem_append_right _ (List.mem_singleton.mpr rfl), .refl⟩
            · exact Or.inl hx'
          · exact Or.inr ⟨List.mem_append_left _ hx2,
              reachable_trans (.step .refl hc) hre⟩
        · intro x hx
          rcases List.mem_append.mp hx with h | h
          · rcases hord2 x h with h' | h'
            · exact Or.inl h'
            · exact Or.inr (fun hx1 => h' (List.mem_cons_of_mem n hx1))
          · rw [List.mem_singleton] at h
            exact Or.inr (h ▸ hvis)
        · exact hn2.1
    refine ⟨hSA, ?_⟩
    intro cs
    induction cs with
    | nil =>
      intro st _ hst _
      rw [sortChildren_nil]
      exact ⟨hst, ⟨[], (List.append_nil _).symm⟩, fun x hx => hx,
        fun x hx => Or.inl hx, fun x hx => Or.inl hx,
        fun c hc => absurd hc (List.not_mem_nil c)⟩
    | cons c cs' ihcs =>
      intro st hcs hst hgray
      rw [sortChildren_cons]
      have h1 := hSA c st (hcs c (List.mem_cons_self c cs')) hst
        (fun x hx h2 => hgray c (List.mem_cons_self c cs') x hx h2)
      obtain ⟨hG1, ⟨p1, hp1⟩, hm1, hn1, ho1, hc1⟩ := h1
      have hgrayp := gray_preserved ⟨p1, hp1⟩ hm1
        (fun x hx => (hn1 x hx).imp id And.left) ho1
      have h2 := ihcs (sortAux g (f + 1) c st)
        (fun d hd => hcs d (List.mem_cons_of_mem c hd)) hG1
        (by
          intro d hd x hx hnx
          have hg := (hgrayp x).mp ⟨hx, hnx⟩
          exact hgray d (List.mem_cons_of_mem c hd) x hg.1 hg.2)
      obtain ⟨hG2, ⟨p2, hp2⟩, hm2, hn2, ho2, hc2⟩ := h2
      refine ⟨hG2, ⟨p1 ++ p2, by rw [hp2, hp1, List.append_assoc]⟩,
        fun x hx => hm2 x (hm1 x hx), ?_, ?_, ?_⟩
      · intro x hx
        rcases hn2 x hx with hx1 | ⟨hxo, d, hd, hre⟩
        · rcases hn1 x hx1 with h | ⟨ho, hre⟩
          · exact Or.inl h
          · refine Or.inr ⟨by rw [hp2]; exact List.mem_append_left _ ho,
              c, List.mem_cons_self c cs', hre⟩
        · exact Or.inr ⟨hxo, d, List.mem_cons_of_mem c hd, hre⟩
      · intro x hx
        rcases ho2 x hx with h | h
        · exact ho1 x h
        · exact Or.inr (fun hx1 => h (hm1 x hx1))
      · intro d hd
        rcases List.mem_cons.mp hd with rfl | hd'
        · exact hm2 d hc1
        · exact hc2 d hd'

/-- `_topological_sort` run from `root` on the empty state satisfies the
traversal postcondition. -/
lemma topo_post (g : Graph) (hWF : WellFormed g) (root : NodeId) :
    SAPost g root ([], []) (sortAux g (root + 1) root ([], [])) :=
  (sort_spec g hWF (root + 1)).1 root ([], []) (Nat.lt_succ_self root)
    ⟨List.nodup_nil, fun x hx => absurd hx (List.not_mem_nil x),
      fun i n h => by simp at h⟩
    (fun x hx => absurd hx (List.not_mem_nil x))

/-! ### Gradient-only effects of `backward` (for the reset claim) -/

lemma resetAllGrads_modifyGrad (g : Graph) (i : NodeId) (q : Tensor → ℚ) :
    resetAllGrads (modifyNode g i (fun nd => { nd with grad := q nd })) =
      resetAllGrads g := by
  induction g generalizing i with
  | nil => rfl
  | cons nd g ihg =>
    cases i with
    | zero => rfl
    | succ j =>
      have hj := ihg j
      simp only [resetAllGrads] at hj
      simp only [modifyNode, resetAllGrads, List.map_cons]
      rw [hj]

lemma resetAllGrads_setGrad (g : Graph) (i : NodeId) (v : ℚ) :
    resetAllGrads (setGrad g i v) = resetAllGrads g :=
  resetAllGrads_modifyGrad g i (fun _ => v)

lemma resetAllGrads_addGrad (g : Graph) (i : NodeId) (v : ℚ) :
    resetAllGrads (addGrad g i v) = resetAllGrads g :=
  resetAllGrads_modifyGrad g i (fun nd => nd.grad + v)

lemma resetAllGrads_runRule (g : Graph) (r : BRule) :
    resetAllGrads (runRule g r) = resetAllGrads g := by
  cases r with
  | noop => rfl
  | addR s opd o => simp [runRule, resetAllGrads_addGrad]
  | mulR s opd o => simp [runRule, resetAllGrads_addGrad]
  | powR s p o => simp [runRule, resetAllGrads_addGrad]
  | expR s v o => simp [runRule, resetAllGrads_addGrad]
  | tanhR s v o => simp [runRule, resetAllGrads_addGrad]

lemma resetAllGrads_foldl (l : List NodeId) (g : Graph) :
    resetAllGrads (l.foldl (fun h n => runRule h (bwdOf h n)) g) = resetAllGrads g := by
  induction l generalizing g with
  | nil => rfl
  | cons n l ihl => simp [List.foldl_cons, ihl, resetAllGrads_runRule]

/-- `backward` only ever writes `grad` fields. -/
lemma resetAllGrads_backward (g : Graph) (t : NodeId) :
    resetAllGrads (backward g t) = resetAllGrads g := by
  unfold backward
  rw [resetAllGrads_foldl, resetAllGrads_setGrad]

/-- A graph whose gradients are all zero is unchanged by the reset. -/
lemma resetAllGrads_eq_self {g : Graph} (h : ∀ nd ∈ g, nd.grad = 0) :
    resetAllGrads g = g := by
  induction g with
  | nil => rfl
  | cons nd g ihg =>
    have hnd : nd.grad = 0 := h nd (List.mem_cons_self nd g)
    have hrest : resetAllGrads g = g := ihg (fun x hx => h x (List.mem_cons_of_mem nd hx))
    cases nd with
    | mk v ch gr b =>
      simp at hnd
      simp [resetAllGrads] at hrest ⊢
      exact ⟨hnd.symm, hrest⟩

/-! ### The fold structure of `MLP.__call__` (for the layering claim) -/

lemma mlpFold_fst (fexp : ℚ → ℚ) (inputs : List ℚ) (ls : List Layer) :
    ∀ (g : Graph) (acc : Option (Option LayerOut)),
      (ls.foldl (mlpStep fexp inputs) (g, acc)).1 = runLayers fexp g ls inputs := by
  induction ls with
  | nil => intro g acc; rfl
  | cons L ls ihl =>
    intro g acc
    simp only [List.foldl_cons, runLayers, mlpStep]
    exact ihl (layerCall fexp g L inputs).1 (some (layerCall fexp g L inputs).2)

/-! ### Claim theorems -/

/-- C1.  The claim says every operation installs its local-derivative
rule *on the new node*, so that invoking the new node's rule adds the
local contributions to the operands' grads.  The code instead executes
`self._backward = _backward`, installing the rule on the *left operand*:
for `a = Tensor(2.0), b = Tensor(3.0), z = a * b` the new node `z` keeps
the default no-op rule (so invoking it, with `z.grad = 1`, leaves
`a.grad = b.grad = 0` instead of adding `3.0` and `2.0`), while the
product rule sits on `a`. -/
theorem c1_rule_installed_on_operand :
    bwdOf gABmul 2 = BRule.noop ∧
    bwdOf gABmul 0 = BRule.mulR 0 1 2 ∧
    gradOf (runRule (setGrad gABmul 2 1) (bwdOf (setGrad gABmul 2 1) 2)) 0 = 0 ∧
    gradOf (runRule (setGrad gABmul 2 1) (bwdOf (setGrad gABmul 2 1) 2)) 1 = 0 := by
  decide

/-- C2.  The claim (and the spec's diamond test) requires
`x.grad == 2*x.value + 3*x.value**2 = 16` for `x = Tensor(2.0)`,
`y = x*x`, `z = x*x*x`, `w = y + z` after `w.backward()`.  Because each
operation stores its rule on the left operand (and `x`'s rule from
`y = x*x` is overwritten by the inner `x*x` of `z`), the code computes
`x.grad = 0` instead. -/
theorem c2_diamond_gradient_wrong :
    gradOf (backward gDiamond 4) 0 = 0 ∧
    valueOf gDiamond 0 = 2 ∧
    gradOf (backward gDiamond 4) 0 ≠
      2 * valueOf gDiamond 0 + 3 * valueOf gDiamond 0 ^ 2 := by
  have h0 : gradOf (backward gDiamond 4) 0 = 0 := by
    simp [backward, topologicalSort, sortAux, sortChildren, gDiamond, mkTensor, mulT,
      addT, childIds, setBwd, setGrad, addGrad, modifyNode, valueOf, gradOf, bwdOf,
      runRule, pairChildren]
  have hv : valueOf gDiamond 0 = 2 := by decide
  refine ⟨h0, hv, ?_⟩
  rw [h0, hv]
  norm_num

/-- C3.  The claim states construction operations never mutate any field
of an existing node.  The code's `self._backward = _backward` mutates the
left operand's backward-rule field: starting from `a = Tensor(2.0),
b = Tensor(3.0)` (where `a._backward` is the no-op), evaluating `a * b`
changes `a._backward` to the product rule. -/
theorem c3_operand_backward_mutated :
    bwdOf gAB 0 = BRule.noop ∧
    bwdOf gABmul 0 = BRule.mulR 0 1 2 ∧
    bwdOf gABmul 0 ≠ BRule.noop := by
  decide

/-- C4.  On every graph satisfying the source's append-only acyclicity
invariant, the order computed by `_topological_sort` from any terminal
node has no duplicates, places every operand of a listed node at a
strictly smaller index, and contains exactly the nodes reachable from the
terminal — each exactly once. -/
theorem c4_topologicalSort_correct (g : Graph) (hWF : WellFormed g) (root : NodeId) :
    (topologicalSort g root).Nodup ∧
    (∀ (i : Nat) (n : NodeId), (topologicalSort g root)[i]? = some n →
      ∀ c ∈ childIds g n, ∃ j : Nat, j < i ∧ (topologicalSort g root)[j]? = some c) ∧
    (∀ m : NodeId, m ∈ topologicalSort g root ↔ Reachable g root m) ∧
    (∀ m : NodeId, Reachable g root m → (topologicalSort g root).count m = 1) := by
  obtain ⟨hG, hpre, hmono, hnew, hord, hroot⟩ := topo_post g hWF root
  have hgray := gray_preserved hpre hmono (fun x hx => (hnew x hx).imp id And.left) hord
  have hmem : ∀ m, m ∈ (sortAux g (root + 1) root ([], [])).2 → Reachable g root m := by
    intro m hm
    rcases hnew m (hG.2.1 m hm) with h | ⟨-, h⟩
    · exact absurd h (List.not_mem_nil m)
    · exact h
  have hreach : ∀ m, Reachable g root m → m ∈ (sortAux g (root + 1) root ([], [])).2 := by
    intro m hm
    induction hm with
    | refl =>
      by_contra hnot
      exact absurd ((hgray root).mp ⟨hroot, hnot⟩).1 (List.not_mem_nil root)
    | step hre hc ih =>
      obtain ⟨i, hi⟩ := List.getElem?_of_mem ih
      obtain ⟨j, hj, hjget⟩ := hG.2.2 i _ hi _ hc
      exact List.mem_iff_getElem?.mpr ⟨j, hjget⟩
  exact ⟨hG.1, hG.2.2, fun m => ⟨hmem m, hreach m⟩,
    fun m hm => List.count_eq_one_of_mem hG.1 (hreach m hm)⟩

/-- Witness for C4 at the concrete diamond graph. -/
theorem c4_witness : (topologicalSort gDiamond 4).Nodup :=
  (c4_topologicalSort_correct gDiamond (by decide) 4).1

/-- C5.  Product rule: for `a.value = 2.0`, `b.value = 3.0`, `z = a * b`,
after `z.backward()` the code yields `a.grad = 3.0` and `b.grad = 2.0`
(the rule stored on `a` runs after `z.grad` is seeded, so both updates
still happen with the right values). -/
theorem c5_product_rule :
    gradOf (backward gABmul 2) 0 = 3 ∧ gradOf (backward gABmul 2) 1 = 2 := by
  constructor <;>
    simp [backward, topologicalSort, sortAux, sortChildren, gABmul, gAB, mkTensor,
      mulT, childIds, setBwd, setGrad, addGrad, modifyNode, valueOf, gradOf, bwdOf,
      runRule, pairChildren]

/-- C6.  Fan-out additivity: for any leaf `x` and `y = x + x`,
`y.backward()` yields `x.grad = 2.0` — the add rule stored on `x`
increments `x.grad` once per use of the operand. -/
theorem c6_fanout_additivity (v : ℚ) :
    gradOf (backward (addT (mkTensor ([] : Graph) v).1 0 0).1 1) 0 = 2 := by
  simp [backward, topologicalSort, sortAux, sortChildren, mkTensor, addT, childIds,
    setBwd, setGrad, addGrad, modifyNode, valueOf, gradOf, bwdOf, runRule,
    pairChildren]
  norm_num

/-- C7.  `c + a` dispatches through `Tensor.__radd__` to literally the
same computation as `a + c`, so the result nodes have identical forward
values and `backward()` from each yields identical gradients on `a` —
for every starting arena, node and plain number. -/
theorem c7_radd_commutes (g : Graph) (a : NodeId) (c : ℚ) :
    valueOf (raddTC g a c).1 (raddTC g a c).2 =
      valueOf (addTC g a c).1 (addTC g a c).2 ∧
    gradOf (backward (raddTC g a c).1 (raddTC g a c).2) a =
      gradOf (backward (addTC g a c).1 (addTC g a c).2) a :=
  ⟨rfl, rfl⟩

/-- C8.  `backward` writes only `grad` fields, so resetting every node's
`grad` to `0.0` after a run restores an all-zero-gradient graph exactly,
and a second `backward()` reproduces the same gradients on every node. -/
theorem c8_reset_idempotent (g : Graph) (t : NodeId)
    (h : ∀ nd ∈ g, nd.grad = 0) (i : NodeId) :
    gradOf (backward (resetAllGrads (backward g t)) t) i =
      gradOf (backward g t) i := by
  rw [resetAllGrads_backward, resetAllGrads_eq_self h]

/-- Witness for C8 at the concrete product graph. -/
theorem c8_witness :
    gradOf (backward (resetAllGrads (backward gABmul 2)) 2) 0 =
      gradOf (backward gABmul 2) 0 :=
  c8_reset_idempotent gABmul 2 (by decide) 0

/-- C9, counterexample to the claim as stated: a `str` operand makes
`__add__` raise an `AttributeError` (`operand.value` on a `str`), not
Python's conventional `unsupported operand type` `TypeError`. -/
theorem c9_counterexample :
    errorIsUnsupportedOperandType (addOp ([] : Graph) 0 (.other ("str"))) = false ∧
    addOp ([] : Graph) 0 (.other ("str")) =
      .error (.attributeError ("str") ("value")) :=
  ⟨rfl, rfl⟩

/-- C9, amended: an operand that is neither a node nor a plain number
makes `__add__`/`__mul__` fail fast at the call site — with an
`AttributeError` naming the missing `value` attribute (not an
`unsupported operand type` `TypeError`) — rather than silently
miscomputing. -/
theorem c9_attribute_error (g : Graph) (s : NodeId) (ty : String) :
    addOp g s (.other ty) = .error (.attributeError ty ("value")) ∧
    mulOp g s (.other ty) = .error (.attributeError ty ("value")) :=
  ⟨rfl, rfl⟩

/-- C10.  `MLP.__call__` hands the raw `inputs` to every layer and keeps
only the last assignment of `out`: for layers `ls ++ [L]` (at least two),
the returned output is exactly `L` applied directly to the raw inputs
(on the arena threaded through the earlier, discarded layer calls) —
intermediate layers' outputs never feed the next layer. -/
theorem c10_mlp_ignores_intermediate_outputs (fexp : ℚ → ℚ) (g : Graph)
    (ls : List Layer) (L : Layer) (inputs : List ℚ) (h : ls ≠ []) :
    mlpCall fexp g ⟨ls ++ [L]⟩ inputs =
      ((layerCall fexp (runLayers fexp g ls inputs) L inputs).1,
        some (layerCall fexp (runLayers fexp g ls inputs) L inputs).2) := by
  show (ls ++ [L]).foldl (mlpStep fexp inputs) (g, none) = _
  rw [List.foldl_append]
  simp only [List.foldl_cons, List.foldl_nil]
  rw [show ∀ st : Graph × Option (Option LayerOut), mlpStep fexp inputs st L =
      ((layerCall fexp st.1 L inputs).1, some (layerCall fexp st.1 L inputs).2)
    from fun st => rfl]
  rw [mlpFold_fst fexp inputs ls g none]

/-- Witness for C10 on a concrete two-layer MLP. -/
theorem c10_witness :
    mlpCall (fun q => q) gNN ⟨[lEx] ++ [lEx]⟩ [1] =
      ((layerCall (fun q => q) (runLayers (fun q => q) gNN [lEx] [1]) lEx [1]).1,
        some (layerCall (fun q => q) (runLayers (fun q => q) gNN [lEx] [1]) lEx [1]).2) :=
  c10_mlp_ignores_intermediate_outputs (fun q => q) gNN [lEx] lEx [1]
    (List.cons_ne_nil lEx [])

end SimpleGrad
